import Mathlib

/-!
Verification of the TEI-XML to CoNLL-U converter (`convert.py`).

The converter parses a TEI-XML document, finds every element that is the
immediate parent of at least one `w` (word) element (the sentence roots),
walks each sentence root's subtree in document order mapping `w` and `pc`
elements to CoNLL-U token rows, clears the last token's `misc` field,
reconstructs the sentence surface text, and writes the result next to the
input with the extension replaced.

We shallowly embed the parsed XML tree and the conversion functions below.
XML elements carry a numeric identity `eid` modelling Python object
identity: the `dict.fromkeys` deduplication in the source hashes elements
by identity, so two structurally identical elements are distinct keys.
-/

namespace TeiConllu

/-- The fully qualified TEI tag of a word element, as compared in
`convert.py` (`e.tag == "{TEI}w"`). -/
def wTag : String := "\x7bhttp://www.tei-c.org/ns/1.0\x7dw"

/-- The fully qualified TEI tag of a punctuation element. -/
def pcTag : String := "\x7bhttp://www.tei-c.org/ns/1.0\x7dpc"

/-- A parsed XML element: identity, tag, attributes, own text, children in
document order, and tail text (the raw text after the closing tag).
`text` and `tail` are `Option String` because lxml reports a missing text
node as `None`. -/
inductive Elem : Type where
  | node (eid : Nat) (tag : String) (attrib : List (String × String))
      (text : Option String) (children : List Elem) (tail : Option String) : Elem

/-- Identity of an element (models Python object identity). -/
def Elem.eid : Elem → Nat
  | .node i _ _ _ _ _ => i

/-- Tag name of an element. -/
def Elem.tag : Elem → String
  | .node _ t _ _ _ _ => t

/-- Attribute list of an element. -/
def Elem.attrib : Elem → List (String × String)
  | .node _ _ a _ _ _ => a

/-- Own text of an element (`e.text` in lxml). -/
def Elem.text : Elem → Option String
  | .node _ _ _ x _ _ => x

/-- Children of an element in document order. -/
def Elem.children : Elem → List Elem
  | .node _ _ _ _ cs _ => cs

/-- Tail text of an element (`e.tail` in lxml). -/
def Elem.tail : Elem → Option String
  | .node _ _ _ _ _ tl => tl

mutual

/-- Document-order (pre-order) traversal of an element's subtree, the
element itself included: models lxml's `p.iter()`. -/
def Elem.preorder : Elem → List Elem
  | .node i t a x cs tl => .node i t a x cs tl :: preorderList cs

/-- Pre-order traversal of a forest of sibling subtrees. -/
def preorderList : List Elem → List Elem
  | [] => []
  | c :: cs => Elem.preorder c ++ preorderList cs

end

mutual

/-- The stream that `findall(".//{TEI}w/..")` produces before
deduplication: for each `w` element strictly below the root, in document
order of the `w` elements, its immediate parent. -/
def Elem.wParentStream : Elem → List Elem
  | .node i t a x cs tl => wParentStreamChildren (.node i t a x cs tl) cs

/-- Helper of `Elem.wParentStream`: processes the children of `p` in
order; a `w` child contributes `p` at the child's document position, and
each child's own subtree is searched recursively. -/
def wParentStreamChildren : Elem → List Elem → List Elem
  | _, [] => []
  | p, c :: cs =>
    (if c.tag = wTag then [p] else []) ++ Elem.wParentStream c
      ++ wParentStreamChildren p cs

end

/-- Order-preserving deduplication by element identity with a seen-set
accumulator: models `dict.fromkeys(...)`, which keys elements by Python
object identity and keeps first-seen order. -/
def dedupFirstAux (seen : List Nat) : List Elem → List Elem
  | [] => []
  | x :: xs =>
    if x.eid ∈ seen then dedupFirstAux seen xs
    else x :: dedupFirstAux (x.eid :: seen) xs

/-- Order-preserving deduplication by element identity. -/
def dedupFirst (l : List Elem) : List Elem :=
  dedupFirstAux [] l

/-- The Sentence Extractor: `dict.fromkeys(tree.getroot().findall(".//{TEI}w/.."))`,
the deduplicated, first-seen-ordered list of immediate parents of word
elements. -/
def extractSentenceRoots (root : Elem) : List Elem :=
  dedupFirst root.wParentStream

/-- An element has a direct word child. -/
def Elem.hasWChild (e : Elem) : Bool :=
  e.children.any (fun c => c.tag = wTag)

/-- Well-formedness of a parsed document: all element identities in the
tree are distinct (true of any actual lxml tree, where identity is the
object address). -/
def Elem.wellFormed (root : Elem) : Prop :=
  (root.preorder.map Elem.eid).Nodup

instance (root : Elem) : Decidable root.wellFormed := by
  unfold Elem.wellFormed; infer_instance

mutual

/-- Python `"".join(e.itertext(with_tail=False))`: the concatenation of
the text content of an element and of all its descendants in document
order, with every tail text skipped. -/
def Elem.formText : Elem → String
  | .node _ _ _ x cs _ => x.getD "" ++ formTextList cs

/-- Text content of a forest of sibling subtrees (tails skipped). -/
def formTextList : List Elem → String
  | [] => ""
  | c :: cs => Elem.formText c ++ formTextList cs

end

/-- A CoNLL-U token row as built by `convert.py`. Absent fields are `none`
(Python `None`), later serialized as `_`. -/
structure Token where
  id : Nat
  form : String
  «lemma» : Option String
  upos : Option String
  xpos : Option String := none
  feats : Option String := none
  head : Option String := none
  deprel : Option String := none
  deps : Option String := none
  misc : Option String
deriving DecidableEq

/-- The `misc` annotation list built by lines 126-136 of `convert.py`:
`SpaceAfter=No` if the tail is not exactly one space (lxml gives `None`
for a missing tail, and `None != " "`), then one entry per present
`type`/`subtype`/`orig`/`norm` attribute, appended in that order. -/
def miscList (e : Elem) : List String :=
  (if e.tail ≠ some " " then ["SpaceAfter=No"] else [])
    ++ (match e.attrib.lookup "type" with
        | some v => ["Type=" ++ v] | none => [])
    ++ (match e.attrib.lookup "subtype" with
        | some v => ["Subtype=" ++ v] | none => [])
    ++ (match e.attrib.lookup "orig" with
        | some v => ["Orig=" ++ v] | none => [])
    ++ (match e.attrib.lookup "norm" with
        | some v => ["Norm=" ++ v] | none => [])

/-- The `pos` variable of `convert.py` (lines 120-124): `PUNCT` for a
`pc` element, else `NUM` when the `subtype` attribute equals `number`,
else `None`. -/
def posOf (e : Elem) : Option String :=
  if e.tag = pcTag then some "PUNCT"
  else if e.attrib.lookup "subtype" = some "number" then some "NUM"
  else none

/-- Mapping of one qualifying element to a token row (lines 137-152 of
`convert.py`), given the running counter `i`. -/
def mapToken (i : Nat) (e : Elem) : Token :=
  { id := i
    form := e.formText
    «lemma» := e.attrib.lookup "lemma"
    upos := posOf e
    misc := if miscList e = [] then none
            else some (String.intercalate "|" (miscList e)) }

/-- The tag filter of lines 114-119: only `w` and `pc` elements are
mapped to tokens. -/
def qualifies (e : Elem) : Bool :=
  e.tag = wTag || e.tag = pcTag

/-- The token loop of lines 111-154: walk a list of elements with the
running counter `i`, emitting a token for each qualifying element;
skipped elements do not advance the counter. -/
def tokenLoop : List Elem → Nat → List Token
  | [], _ => []
  | e :: es, i =>
    if qualifies e then mapToken i e :: tokenLoop es (i + 1)
    else tokenLoop es i

/-- The raw token list of a sentence root `p`: the loop over `p.iter()`
starting the counter at 0. -/
def rawTokens (p : Elem) : List Token :=
  tokenLoop p.preorder 0

/-- Line 155, `tokens[-1]["misc"] = None`: clear the `misc` field of the
last token. On an empty token list the Python indexing `tokens[-1]`
raises `IndexError`; that crash is modelled by `none`. -/
def clearLastMisc (ts : List Token) : Option (List Token) :=
  match ts.getLast? with
  | none => none
  | some t => some (ts.dropLast ++ [{ t with misc := none }])

/-- Python whitespace characters recognised by `str.strip()` (ASCII
range, which covers everything this converter can produce). -/
def pyIsSpace (c : Char) : Bool :=
  c = ' ' || c = '\t' || c = '\n' || c = '\r' || c = '\x0b' || c = '\x0c'

/-- Python `str.strip()`: remove leading and trailing whitespace. -/
def pyStrip (s : String) : String :=
  ⟨((s.data.dropWhile pyIsSpace).reverse.dropWhile pyIsSpace).reverse⟩

/-- The separator appended after one token's form by line 158 of
`convert.py`: empty exactly when `misc` equals the exact string
`SpaceAfter=No`, a single space otherwise. -/
def sepOf (t : Token) : String :=
  if t.misc = some "SpaceAfter=No" then "" else " "

/-- The text accumulation loop of lines 156-158: concatenate each token's
form followed by its separator. -/
def rawText (ts : List Token) : String :=
  ts.foldl (fun acc t => acc ++ t.form ++ sepOf t) ""

/-- A sentence as assembled by `convert.py`: metadata `sent_id`, the
token rows, and metadata `text`. -/
structure Sentence where
  sentId : Nat
  tokens : List Token
  text : String
deriving DecidableEq

/-- The Token Mapper & Text Reconstructor for one sentence root (lines
110-159): build the raw token list, clear the last token's `misc`
(crashing on an empty list, modelled by `none`), then reconstruct the
text and `strip()` it. -/
def mapSentence (sid : Nat) (p : Elem) : Option Sentence :=
  match clearLastMisc (rawTokens p) with
  | none => none
  | some ts => some { sentId := sid, tokens := ts, text := pyStrip (rawText ts) }

/-- Python `str.replace(pat, rep)` on character lists: replace every
non-overlapping occurrence of `pat` left to right. The extra `fuel`
argument (one unit per examined position) makes the recursion structural;
any `fuel ≥ l.length` computes the replacement, see
`replaceAllFuel_spec` style lemmas below. -/
def replaceAllFuel (pat rep : List Char) : Nat → List Char → List Char
  | 0, l => l
  | _ + 1, [] => []
  | fuel + 1, c :: cs =>
    if pat.isPrefixOf (c :: cs) ∧ pat ≠ [] then
      rep ++ replaceAllFuel pat rep fuel ((c :: cs).drop pat.length)
    else c :: replaceAllFuel pat rep fuel cs

/-- Line 164 of `convert.py`: the output path is
`xml.name.replace(".xml", ".conllu")`. -/
def derivedOutputPath (name : String) : String :=
  ⟨replaceAllFuel ".xml".data ".conllu".data name.data.length name.data⟩

/-! ### Definitions following the specification's words

These are deliberately written from the spec text, to be compared with
the definitions above, which are translated from the source. -/

/-- Python `str.rstrip()`: remove trailing whitespace only. Written from
the spec's words "Concatenated result is right-trimmed", used to compare
against the source's `text.strip()`. -/
def pyRstrip (s : String) : String :=
  ⟨(s.data.reverse.dropWhile pyIsSpace).reverse⟩

/-- Modelled from the spec's words: "the concatenation, in token order,
of each token's form followed by a single space unless that token's misc
field equals exactly the string SpaceAfter=No". -/
def concatForms : List Token → String
  | [] => ""
  | t :: ts => t.form ++ sepOf t ++ concatForms ts

/-- Modelled from the spec's words for the text-reconstruction claim:
the concatenation of each form and its separator, right-trimmed, with
leading whitespace of the first form preserved. -/
def specTextRightTrimmed (ts : List Token) : String :=
  pyRstrip (concatForms ts)

/-- Modelled from the spec's words for the `misc` claim: the list of
exactly the applicable annotations — the `SpaceAfter=No` flag, then the
attribute-derived entries in the fixed relative order Type, Subtype,
Orig, Norm, each included only if the source attribute exists. -/
def specMiscAnnotations (e : Elem) : List String :=
  (if e.tail ≠ some " " then ["SpaceAfter=No"] else [])
    ++ ((e.attrib.lookup "type").map (fun v => "Type=" ++ v)).toList
    ++ ((e.attrib.lookup "subtype").map (fun v => "Subtype=" ++ v)).toList
    ++ ((e.attrib.lookup "orig").map (fun v => "Orig=" ++ v)).toList
    ++ ((e.attrib.lookup "norm").map (fun v => "Norm=" ++ v)).toList

/-- Modelled from the spec's words: `misc` is the pipe-join of the
applicable annotations, and absent — not the empty string — when none
apply. -/
def specMisc (e : Elem) : Option String :=
  match specMiscAnnotations e with
  | [] => none
  | l => some (String.intercalate "|" l)

/-- Does `pat` occur as a contiguous substring of the character list?
Used to express the "only the extension" side condition of the output
path claim. -/
def occursSub (pat : List Char) : List Char → Bool
  | [] => pat.isEmpty
  | c :: cs => pat.isPrefixOf (c :: cs) || occursSub pat cs

/-- First index at which an element of the given identity occurs in a
stream; measures "document order of first appearance". -/
def firstIdx (l : List Elem) (e : Elem) : Nat :=
  l.findIdx (fun y => y.eid == e.eid)

/-! ### Concrete elements used by witnesses and counterexamples -/

/-- A word element with an identity, a lemma-free attribute list, its
text, and its tail. -/
def wEl (i : Nat) (txt : String) (tl : Option String) : Elem :=
  Elem.node i wTag [] (some txt) [] tl

/-- A punctuation element. -/
def pcEl (i : Nat) (txt : String) (tl : Option String) : Elem :=
  Elem.node i pcTag [] (some txt) [] tl

/-- A three-token sentence root: `The cat .`, with default spacing and
`SpaceAfter=No` on `cat`. -/
def exSentence : Elem :=
  Elem.node 10 "s" [] none
    [wEl 11 "The" (some " "), wEl 12 "cat" none, pcEl 13 "." none] none

/-- A sentence root whose single word's text starts with a space: its
form is `" a"`, so leading whitespace reaches the reconstruction. -/
def exLeadingSpace : Elem :=
  Elem.node 20 "s" [] none [wEl 21 " a" none] none

/-- A sentence-root-shaped element with zero qualifying descendants: its
only child is neither a word nor a punctuation element. -/
def exNoTokens : Elem :=
  Elem.node 30 "s" [] none [Elem.node 31 "note" [] (some "x") [] none] none

/-- A punctuation element that also carries `subtype="number"`. -/
def exPcNumber : Elem :=
  Elem.node 40 pcTag [("subtype", "number")] (some "3") [] (some " ")

/-- A word element with `subtype="number"`. -/
def exWNumber : Elem :=
  Elem.node 41 wTag [("subtype", "number")] (some "3") [] (some " ")

/-- A word element with no attributes. -/
def exWPlain : Elem :=
  Elem.node 42 wTag [] (some "dog") [] (some " ")

/-- First sentence root of the example document: two word children, so
the parent stream mentions it twice. -/
def exDocS1 : Elem :=
  Elem.node 51 "s" [] none [wEl 52 "a" (some " "), wEl 53 "b" none] none

/-- Second sentence root of the example document. -/
def exDocS2 : Elem :=
  Elem.node 54 "s" [] none [wEl 55 "x" none] none

/-- Third sentence root: structurally identical to the second — same
tags, attributes and texts — apart from element identity. -/
def exDocS3 : Elem :=
  Elem.node 56 "s" [] none [wEl 57 "x" none] none

/-- A document with three sentence roots. -/
def exDoc : Elem :=
  Elem.node 50 "doc" [] none [exDocS1, exDocS2, exDocS3] none

/-! ### Helper lemmas: tree traversal -/

theorem Elem.sizeOf_lt_of_mem_children :
    ∀ (e : Elem), ∀ c ∈ e.children, sizeOf c < sizeOf e := by
  intro e c hc
  cases e with
  | node i t a x cs tl =>
    simp only [Elem.children] at hc
    have h1 := List.sizeOf_lt_of_mem hc
    rw [Elem.node.sizeOf_spec]
    omega

/-- Induction over elements: to prove `P` everywhere it suffices to
prove it at each element given it for all children. -/
theorem Elem.inductOn {P : Elem → Prop}
    (h : ∀ e : Elem, (∀ c ∈ e.children, P c) → P e) : ∀ e, P e
  | e => h e (fun c hc => Elem.inductOn h c)
termination_by e => sizeOf e
decreasing_by exact Elem.sizeOf_lt_of_mem_children e c hc

theorem preorder_eq (e : Elem) : e.preorder = e :: preorderList e.children := by
  cases e
  rfl

theorem self_mem_preorder (e : Elem) : e ∈ e.preorder := by
  rw [preorder_eq]
  exact List.mem_cons_self _ _

theorem mem_preorderList {x : Elem} {l : List Elem} :
    x ∈ preorderList l ↔ ∃ c ∈ l, x ∈ c.preorder := by
  induction l with
  | nil => simp [preorderList]
  | cons c cs ih =>
    simp only [preorderList, List.mem_append, ih, List.mem_cons]
    constructor
    · rintro (h | ⟨d, hd, hx⟩)
      · exact ⟨c, Or.inl rfl, h⟩
      · exact ⟨d, Or.inr hd, hx⟩
    · rintro ⟨d, (rfl | hd), hx⟩
      · exact Or.inl hx
      · exact Or.inr ⟨d, hd, hx⟩

theorem mem_preorder {x e : Elem} :
    x ∈ e.preorder ↔ x = e ∨ ∃ c ∈ e.children, x ∈ c.preorder := by
  rw [preorder_eq, List.mem_cons, mem_preorderList]

theorem wParentStream_eq (e : Elem) :
    e.wParentStream = wParentStreamChildren e e.children := by
  cases e
  rfl

theorem mem_wParentStreamChildren {x p : Elem} {l : List Elem} :
    x ∈ wParentStreamChildren p l ↔
      (x = p ∧ ∃ c ∈ l, c.tag = wTag) ∨ ∃ c ∈ l, x ∈ c.wParentStream := by
  induction l with
  | nil => simp [wParentStreamChildren]
  | cons c cs ih =>
    simp only [wParentStreamChildren, List.mem_append, ih, List.mem_cons]
    constructor
    · rintro ((h | h) | h)
      · rw [List.mem_ite_nil_right] at h
        obtain ⟨hw, hx⟩ := h
        exact Or.inl ⟨List.mem_singleton.mp hx, c, Or.inl rfl, hw⟩
      · exact Or.inr ⟨c, Or.inl rfl, h⟩
      · rcases h with ⟨hp, d, hd, hw⟩ | ⟨d, hd, hx⟩
        · exact Or.inl ⟨hp, d, Or.inr hd, hw⟩
        · exact Or.inr ⟨d, Or.inr hd, hx⟩
    · rintro (⟨rfl, d, (rfl | hd), hw⟩ | ⟨d, (rfl | hd), hx⟩)
      · exact Or.inl (Or.inl (by simp [hw]))
      · exact Or.inr (Or.inl ⟨rfl, d, hd, hw⟩)
      · exact Or.inl (Or.inr hx)
      · exact Or.inr (Or.inr ⟨d, hd, hx⟩)

/-- An element has a word child exactly when some direct child carries
the word tag. -/
theorem hasWChild_iff {e : Elem} :
    e.hasWChild = true ↔ ∃ c ∈ e.children, c.tag = wTag := by
  simp [Elem.hasWChild, List.any_eq_true, decide_eq_true_eq]

/-- Characterization of the parent stream: an element appears in it
exactly when it is a node of the tree with at least one word child. -/
theorem mem_wParentStream {t : Elem} :
    ∀ {x : Elem}, x ∈ t.wParentStream ↔ x ∈ t.preorder ∧ x.hasWChild = true := by
  induction t using Elem.inductOn with
  | _ e ih =>
    intro x
    rw [wParentStream_eq, mem_wParentStreamChildren, mem_preorder]
    constructor
    · rintro (⟨rfl, hw⟩ | ⟨c, hc, hx⟩)
      · exact ⟨Or.inl rfl, hasWChild_iff.mpr hw⟩
      · obtain ⟨hx1, hx2⟩ := (ih c hc).mp hx
        exact ⟨Or.inr ⟨c, hc, hx1⟩, hx2⟩
    · rintro ⟨(rfl | ⟨c, hc, hx⟩), hw⟩
      · exact Or.inl ⟨rfl, hasWChild_iff.mp hw⟩
      · exact Or.inr ⟨c, hc, (ih c hc).mpr ⟨hx, hw⟩⟩

/-! ### Helper lemmas: deduplication -/

theorem dedupFirstAux_subset {seen : List Nat} {l : List Elem} {x : Elem}
    (h : x ∈ dedupFirstAux seen l) : x ∈ l := by
  induction l generalizing seen with
  | nil => simp [dedupFirstAux] at h
  | cons y ys ih =>
    by_cases hy : y.eid ∈ seen
    · simp only [dedupFirstAux, if_pos hy] at h
      exact List.mem_cons_of_mem _ (ih h)
    · simp only [dedupFirstAux, if_neg hy, List.mem_cons] at h
      rcases h with rfl | h
      · exact List.mem_cons_self _ _
      · exact List.mem_cons_of_mem _ (ih h)

theorem dedupFirstAux_eid_not_seen {seen : List Nat} {l : List Elem} {x : Elem}
    (h : x ∈ dedupFirstAux seen l) : x.eid ∉ seen := by
  induction l generalizing seen with
  | nil => simp [dedupFirstAux] at h
  | cons y ys ih =>
    by_cases hy : y.eid ∈ seen
    · rw [dedupFirstAux, if_pos hy] at h
      exact ih h
    · rw [dedupFirstAux, if_neg hy] at h
      rcases List.mem_cons.mp h with rfl | h
      · exact hy
      · intro hmem
        exact ih h (List.mem_cons_of_mem _ hmem)

theorem dedupFirstAux_eid_nodup (seen : List Nat) (l : List Elem) :
    ((dedupFirstAux seen l).map Elem.eid).Nodup := by
  induction l generalizing seen with
  | nil => simp [dedupFirstAux]
  | cons y ys ih =>
    by_cases hy : y.eid ∈ seen
    · rw [dedupFirstAux, if_pos hy]
      exact ih seen
    · rw [dedupFirstAux, if_neg hy]
      refine List.nodup_cons.mpr ⟨?_, ih (y.eid :: seen)⟩
      intro hmem
      obtain ⟨z, hz, hze⟩ := List.mem_map.mp hmem
      have := dedupFirstAux_eid_not_seen hz
      rw [hze] at this
      exact this (List.mem_cons_self _ _)

theorem dedupFirstAux_mem {l : List Elem} {seen : List Nat} {x : Elem}
    (inj : ∀ a ∈ l, ∀ b ∈ l, a.eid = b.eid → a = b) :
    x ∈ dedupFirstAux seen l ↔ x ∈ l ∧ x.eid ∉ seen := by
  induction l generalizing seen with
  | nil => simp [dedupFirstAux]
  | cons y ys ih =>
    have inj' : ∀ a ∈ ys, ∀ b ∈ ys, a.eid = b.eid → a = b := fun a ha b hb =>
      inj a (List.mem_cons_of_mem _ ha) b (List.mem_cons_of_mem _ hb)
    by_cases hy : y.eid ∈ seen
    · simp only [dedupFirstAux, if_pos hy, ih inj', List.mem_cons]
      constructor
      · rintro ⟨h1, h2⟩
        exact ⟨Or.inr h1, h2⟩
      · rintro ⟨rfl | h1, h2⟩
        · exact absurd hy h2
        · exact ⟨h1, h2⟩
    · simp only [dedupFirstAux, if_neg hy, List.mem_cons, ih inj']
      constructor
      · rintro (rfl | ⟨h1, h2⟩)
        · exact ⟨Or.inl rfl, hy⟩
        · exact ⟨Or.inr h1, fun hm => h2 (Or.inr hm)⟩
      · rintro ⟨rfl | h1, h2⟩
        · exact Or.inl rfl
        · by_cases hxy : x.eid = y.eid
          · exact Or.inl (inj x (List.mem_cons_of_mem _ h1) y
              (List.mem_cons_self _ _) hxy)
          · exact Or.inr ⟨h1, fun hm => hm.elim hxy h2⟩

theorem firstIdx_cons_self (y : Elem) (ys : List Elem) : firstIdx (y :: ys) y = 0 := by
  simp [firstIdx, List.findIdx_cons]

theorem firstIdx_cons_ne {x y : Elem} (ys : List Elem) (h : x.eid ≠ y.eid) :
    firstIdx (y :: ys) x = firstIdx ys x + 1 := by
  have hb : (y.eid == x.eid) = false := by
    simp only [beq_eq_false_iff_ne, ne_eq]
    exact fun he => h he.symm
  simp [firstIdx, List.findIdx_cons, hb]

/-- The deduplicated stream is ordered by first appearance in the
original stream. -/
theorem dedupFirstAux_pairwise_firstIdx :
    ∀ (l : List Elem) (seen : List Nat),
      (dedupFirstAux seen l).Pairwise (fun a b => firstIdx l a < firstIdx l b) := by
  intro l
  induction l with
  | nil => intro seen; simp [dedupFirstAux]
  | cons y ys ih =>
    intro seen
    by_cases hy : y.eid ∈ seen
    · rw [dedupFirstAux, if_pos hy]
      refine (ih seen).imp_of_mem ?_
      intro a b ha hb hab
      have hae : a.eid ≠ y.eid := fun he =>
        dedupFirstAux_eid_not_seen ha (he ▸ hy)
      have hbe : b.eid ≠ y.eid := fun he =>
        dedupFirstAux_eid_not_seen hb (he ▸ hy)
      rw [firstIdx_cons_ne ys hae, firstIdx_cons_ne ys hbe]
      omega
    · rw [dedupFirstAux, if_neg hy]
      rw [List.pairwise_cons]
      constructor
      · intro b hb
        have hbe : b.eid ≠ y.eid := fun he =>
          dedupFirstAux_eid_not_seen hb (he ▸ List.mem_cons_self _ _)
        rw [firstIdx_cons_self, firstIdx_cons_ne ys hbe]
        omega
      · refine (ih (y.eid :: seen)).imp_of_mem ?_
        intro a b ha hb hab
        have hae : a.eid ≠ y.eid := fun he =>
          dedupFirstAux_eid_not_seen ha (he ▸ List.mem_cons_self _ _)
        have hbe : b.eid ≠ y.eid := fun he =>
          dedupFirstAux_eid_not_seen hb (he ▸ List.mem_cons_self _ _)
        rw [firstIdx_cons_ne ys hae, firstIdx_cons_ne ys hbe]
        omega

/-! ### Helper lemmas: the token loop -/

theorem tokenLoop_eq (l : List Elem) :
    ∀ i, tokenLoop l i
      = (List.enumFrom i (l.filter qualifies)).map (fun x => mapToken x.1 x.2) := by
  induction l with
  | nil => intro i; rfl
  | cons e es ih =>
    intro i
    by_cases hq : qualifies e
    · rw [tokenLoop, if_pos hq, List.filter_cons_of_pos hq, List.enumFrom_cons,
        List.map_cons, ih (i + 1)]
    · rw [tokenLoop, if_neg hq, List.filter_cons_of_neg hq, ih i]

theorem tokenLoop_map_id (l : List Elem) (i : Nat) :
    (tokenLoop l i).map Token.id = List.range' i (l.filter qualifies).length := by
  rw [tokenLoop_eq, List.map_map]
  have h : (Token.id ∘ fun x : Nat × Elem => mapToken x.1 x.2) = Prod.fst :=
    funext (fun x => rfl)
  rw [h, List.enumFrom_map_fst]

theorem tokenLoop_length (l : List Elem) (i : Nat) :
    (tokenLoop l i).length = (l.filter qualifies).length := by
  have := congrArg List.length (tokenLoop_map_id l i)
  simpa using this

theorem rawTokens_ne_nil_of_qualifying {p : Elem} {c : Elem}
    (hc : c ∈ p.preorder) (hq : qualifies c = true) : rawTokens p ≠ [] := by
  intro h
  have h1 : (p.preorder.filter qualifies).length = 0 := by
    have := tokenLoop_length p.preorder 0
    rw [rawTokens] at h
    rw [h] at this
    simpa using this.symm
  rw [List.length_eq_zero] at h1
  have : c ∈ p.preorder.filter qualifies := List.mem_filter.mpr ⟨hc, hq⟩
  rw [h1] at this
  exact List.not_mem_nil c this

/-! ### Helper lemmas: the misc field -/

theorem SA_ne_type (v : String) : "SpaceAfter=No" ≠ "Type=" ++ v := by
  intro h
  have h2 := congrArg String.data h
  rw [String.data_append] at h2
  simp at h2

theorem SA_ne_subtype (v : String) : "SpaceAfter=No" ≠ "Subtype=" ++ v := by
  intro h
  have h2 := congrArg String.data h
  rw [String.data_append] at h2
  simp at h2

theorem SA_ne_orig (v : String) : "SpaceAfter=No" ≠ "Orig=" ++ v := by
  intro h
  have h2 := congrArg String.data h
  rw [String.data_append] at h2
  simp at h2

theorem SA_ne_norm (v : String) : "SpaceAfter=No" ≠ "Norm=" ++ v := by
  intro h
  have h2 := congrArg String.data h
  rw [String.data_append] at h2
  simp at h2

/-- The `SpaceAfter=No` annotation is in the misc list exactly when the
tail is not a single space: the attribute-derived entries can never
produce that string. -/
theorem SA_mem_miscList (e : Elem) :
    "SpaceAfter=No" ∈ miscList e ↔ e.tail ≠ some " " := by
  rcases h1 : e.attrib.lookup "type" with _ | tv <;>
  rcases h2 : e.attrib.lookup "subtype" with _ | sv <;>
  rcases h3 : e.attrib.lookup "orig" with _ | ov <;>
  rcases h4 : e.attrib.lookup "norm" with _ | nv <;>
  by_cases ht : e.tail = some " " <;>
  simp [miscList, h1, h2, h3, h4, ht, SA_ne_type, SA_ne_subtype, SA_ne_orig,
    SA_ne_norm]

theorem miscList_eq_spec (e : Elem) : miscList e = specMiscAnnotations e := by
  rcases h1 : e.attrib.lookup "type" with _ | tv <;>
  rcases h2 : e.attrib.lookup "subtype" with _ | sv <;>
  rcases h3 : e.attrib.lookup "orig" with _ | ov <;>
  rcases h4 : e.attrib.lookup "norm" with _ | nv <;>
  simp [miscList, specMiscAnnotations, h1, h2, h3, h4]

/-! ### Helper lemmas: text reconstruction and last-token cleanup -/

theorem rawText_append (l : List Token) (t : Token) :
    rawText (l ++ [t]) = rawText l ++ t.form ++ sepOf t := by
  rw [rawText, List.foldl_append]
  rfl

theorem foldl_text_eq (l : List Token) :
    ∀ acc : String,
      List.foldl (fun acc t => acc ++ t.form ++ sepOf t) acc l
        = acc ++ concatForms l := by
  induction l with
  | nil => intro acc; rw [List.foldl_nil, concatForms, String.append_empty]
  | cons t ts ih =>
    intro acc
    rw [List.foldl_cons, ih, concatForms, String.append_assoc,
      String.append_assoc, String.append_assoc]

/-- The text accumulation loop computes the concatenation of forms and
separators described by the spec. -/
theorem rawText_eq_concatForms (l : List Token) : rawText l = concatForms l := by
  rw [rawText, foldl_text_eq, String.empty_append]

theorem clearLastMisc_nil : clearLastMisc [] = none := rfl

theorem clearLastMisc_of_ne_nil {ts : List Token} (h : ts ≠ []) :
    clearLastMisc ts
      = some (ts.dropLast ++ [{ ts.getLast h with misc := none }]) := by
  rw [clearLastMisc, List.getLast?_eq_getLast ts h]

theorem clearLastMisc_eq_none_iff {ts : List Token} :
    clearLastMisc ts = none ↔ ts = [] := by
  constructor
  · intro h
    by_contra hne
    rw [clearLastMisc_of_ne_nil hne] at h
    exact Option.some_ne_none _ h
  · rintro rfl
    rfl

/-! ### Helper lemmas: output-path replacement -/

theorem xml_data : ".xml".data = ['.', 'x', 'm', 'l'] := rfl

theorem conllu_data : ".conllu".data = ['.', 'c', 'o', 'n', 'l', 'l', 'u'] := rfl

theorem replaceAllFuel_nilInput (pat rep : List Char) :
    ∀ f, replaceAllFuel pat rep f [] = [] := by
  intro f
  cases f <;> rfl

/-- No occurrence of `.xml` can straddle the boundary between a clean
prefix and a final `.xml`: if `.xml` is a prefix of `l ++ ".xml"` with
`l` nonempty, then `.xml` already occurs inside `l`. -/
theorem xml_prefix_straddle :
    ∀ l : List Char, ".xml".data.isPrefixOf (l ++ ".xml".data) = true →
      l = [] ∨ occursSub ".xml".data l = true := by
  intro l h
  rw [List.isPrefixOf_iff_prefix] at h
  match l with
  | [] => exact Or.inl rfl
  | [a] =>
    exfalso
    obtain ⟨t, ht⟩ := h
    rw [xml_data] at ht
    simp at ht
  | [a, b] =>
    exfalso
    obtain ⟨t, ht⟩ := h
    rw [xml_data] at ht
    simp at ht
  | [a, b, c] =>
    exfalso
    obtain ⟨t, ht⟩ := h
    rw [xml_data] at ht
    simp at ht
  | a :: b :: c :: d :: rest =>
    obtain ⟨t, ht⟩ := h
    rw [xml_data] at ht
    simp only [List.cons_append, List.cons.injEq] at ht
    obtain ⟨ha, hb, hc, hd, _⟩ := ht
    refine Or.inr ?_
    rw [occursSub, Bool.or_eq_true, List.isPrefixOf_iff_prefix]
    refine Or.inl ?_
    rw [xml_data, ← ha, ← hb, ← hc, ← hd]
    exact ⟨rest, rfl⟩

/-- Replacing `.xml` by `.conllu` in `l ++ ".xml"` where `.xml` does not
occur in `l` yields `l ++ ".conllu"`, for any sufficient fuel. -/
theorem replaceAllFuel_clean :
    ∀ (l : List Char) (fuel : Nat), occursSub ".xml".data l = false →
      l.length + 4 ≤ fuel →
      replaceAllFuel ".xml".data ".conllu".data fuel (l ++ ".xml".data)
        = l ++ ".conllu".data := by
  intro l
  induction l with
  | nil =>
    intro fuel _ hfuel
    match fuel, hfuel with
    | f + 1, _ =>
      rw [List.nil_append, xml_data, replaceAllFuel, if_pos]
      · rw [show (['.', 'x', 'm', 'l'].drop (".xml".data.length)) = [] from rfl,
          replaceAllFuel_nilInput, List.append_nil, List.nil_append]
      · constructor
        · rw [List.isPrefixOf_iff_prefix]
        · simp
  | cons c cs ih =>
    intro fuel hocc hfuel
    rw [occursSub, Bool.or_eq_false_iff] at hocc
    obtain ⟨hocc1, hocc2⟩ := hocc
    match fuel, hfuel with
    | f + 1, hf1 =>
      rw [List.cons_append, replaceAllFuel, if_neg]
      · have hf : cs.length + 4 ≤ f := by
          simp only [List.length_cons] at hf1
          omega
        rw [ih f hocc2 hf]
        rfl
      · rintro ⟨hpre, -⟩
        rcases xml_prefix_straddle (c :: cs) (by rw [← List.cons_append] at hpre; exact hpre) with h | h
        · exact List.cons_ne_nil _ _ h
        · rw [occursSub, hocc1, hocc2] at h
          simp at h

/-! ### Claim theorems -/

/-- C1, counterexample: the claim says the concatenated text is only
right-trimmed, with leading whitespace of the first form preserved. The
code calls `text.strip()`, which also removes leading whitespace: on a
sentence whose single word form is `" a"`, the stored text is `"a"`,
while the right-trimmed concatenation is `" a"`. -/
theorem claim_C1_counterexample :
    (mapSentence 1 exLeadingSpace).map Sentence.text = some "a"
    ∧ (mapSentence 1 exLeadingSpace).map (fun s => specTextRightTrimmed s.tokens)
        = some " a"
    ∧ (some "a" : Option String) ≠ some " a" :=
  ⟨by decide, by decide, by decide⟩

/-- C1, amended: for every sentence the mapper produces, the stored
`text` is the concatenation, in token order, of each token's form
followed by a single space unless that token's `misc` equals exactly
`SpaceAfter=No`, with the result stripped of trailing AND leading
whitespace (Python `str.strip()`, not a right trim). -/
theorem claim_C1_amended (sid : Nat) (p : Elem) (s : Sentence)
    (h : mapSentence sid p = some s) :
    s.text = pyStrip (concatForms s.tokens) := by
  rw [mapSentence] at h
  rcases hc : clearLastMisc (rawTokens p) with _ | ts
  · rw [hc] at h
    exact absurd h (by simp)
  · rw [hc] at h
    simp only [Option.some.injEq] at h
    rw [← h, rawText_eq_concatForms]

/-- C1, witness for the amended theorem at the concrete sentence
`The cat .` with `SpaceAfter=No` on `cat`. -/
theorem claim_C1_witness :
    (Sentence.mk 1
      [{ id := 0, form := "The", «lemma» := none, upos := none, misc := none },
       { id := 1, form := "cat", «lemma» := none, upos := none,
         misc := some "SpaceAfter=No" },
       { id := 2, form := ".", «lemma» := none, upos := some "PUNCT",
         misc := none }]
      "The cat.").text
    = pyStrip (concatForms
      [{ id := 0, form := "The", «lemma» := none, upos := none, misc := none },
       { id := 1, form := "cat", «lemma» := none, upos := none,
         misc := some "SpaceAfter=No" },
       { id := 2, form := ".", «lemma» := none, upos := some "PUNCT",
         misc := none }]) :=
  claim_C1_amended 1 exSentence _ (by decide)

/-- C2: for every sentence root whose raw token list is non-empty, the
mapper succeeds, the final token's `misc` is absent — regardless of its
tail text or attributes, since line 155 clears it unconditionally after
the list is built — and the reconstructed text is computed from the
cleared list, so the final token contributes `form ++ " "` and never
suppresses its separator. -/
theorem claim_C2 (sid : Nat) (p : Elem) (h : rawTokens p ≠ []) :
    ∃ s, mapSentence sid p = some s
      ∧ (∃ t, s.tokens.getLast? = some t ∧ t.misc = none
          ∧ s.text = pyStrip (rawText s.tokens.dropLast ++ t.form ++ " ")) := by
  rw [mapSentence, clearLastMisc_of_ne_nil h]
  set t0 : Token := { rawTokens p |>.getLast h with misc := none } with ht0
  refine ⟨_, rfl, t0, ?_, rfl, ?_⟩
  · rw [List.getLast?_concat]
  · have hsep : sepOf t0 = " " := by
      rw [sepOf, ht0]
      simp
    rw [rawText_append, hsep, List.dropLast_concat]

/-- C2, witness at the concrete sentence `The cat .`. -/
theorem claim_C2_witness :
    ∃ s, mapSentence 1 exSentence = some s
      ∧ (∃ t, s.tokens.getLast? = some t ∧ t.misc = none
          ∧ s.text = pyStrip (rawText s.tokens.dropLast ++ t.form ++ " ")) :=
  claim_C2 1 exSentence (by decide)

/-- C3, counterexample: the claim says a sentence root with zero
qualifying descendants yields a sentence entry with an empty token list
and that the last-token access is guarded. In the code the access
`tokens[-1]` is not guarded: on such an element the token list is empty
and the mapper raises `IndexError` (modelled by `none`) instead of
producing a sentence. -/
theorem claim_C3_counterexample :
    (exNoTokens.preorder.filter qualifies = [])
    ∧ mapSentence 1 exNoTokens = none :=
  ⟨rfl, by decide⟩

/-- C3, amended: for every sentence-root element with zero qualifying
(word/punctuation) descendants, the unguarded access to the last token
fails: the mapper raises `IndexError` (modelled by `none`) and produces
no sentence entry. (In the full pipeline this input never reaches the
mapper: every extracted sentence root has a word child, see C10.) -/
theorem claim_C3_amended (sid : Nat) (p : Elem)
    (h : p.preorder.filter qualifies = []) : mapSentence sid p = none := by
  have hraw : rawTokens p = [] := by
    have hlen := tokenLoop_length p.preorder 0
    rw [h] at hlen
    simp only [List.length_nil] at hlen
    rw [rawTokens, ← List.length_eq_zero]
    exact hlen
  rw [mapSentence, hraw, clearLastMisc_nil]

/-- C3, witness for the amended theorem at a concrete element whose only
child is neither a word nor a punctuation element. -/
theorem claim_C3_witness : mapSentence 2 exNoTokens = none :=
  claim_C3_amended 2 exNoTokens rfl

/-- C4: for every well-formed parsed tree, the Sentence Extractor
returns exactly the elements that are immediate parents of at least one
word element (membership and permutation with the tree's parent nodes),
each exactly once (no duplicates, even for parents of several word
children), ordered by first appearance in the document-order stream of
word-element parents; equality is node identity, so the two structurally
identical sentence elements of `exDoc` stay distinct (see the witness);
a tree with zero matching parents yields the empty list. -/
theorem claim_C4 (t : Elem) (hwf : t.wellFormed) :
    (∀ e, e ∈ extractSentenceRoots t ↔ e ∈ t.preorder ∧ e.hasWChild = true)
    ∧ (extractSentenceRoots t).Perm
        (t.preorder.filter (fun e => e.hasWChild))
    ∧ (extractSentenceRoots t).Nodup
    ∧ (extractSentenceRoots t).Pairwise
        (fun a b => firstIdx t.wParentStream a < firstIdx t.wParentStream b)
    ∧ (t.preorder.filter (fun e => e.hasWChild) = []
        → extractSentenceRoots t = []) := by
  have hinjPre : ∀ a ∈ t.preorder, ∀ b ∈ t.preorder, a.eid = b.eid → a = b :=
    fun a ha b hb => List.inj_on_of_nodup_map hwf ha hb
  have hinj : ∀ a ∈ t.wParentStream, ∀ b ∈ t.wParentStream,
      a.eid = b.eid → a = b := fun a ha b hb =>
    hinjPre a (mem_wParentStream.mp ha).1 b (mem_wParentStream.mp hb).1
  have hmem : ∀ e, e ∈ extractSentenceRoots t
      ↔ e ∈ t.preorder ∧ e.hasWChild = true := by
    intro e
    rw [extractSentenceRoots, dedupFirst, dedupFirstAux_mem hinj,
      ← mem_wParentStream]
    simp
  have hnodup : (extractSentenceRoots t).Nodup :=
    List.Nodup.of_map Elem.eid (dedupFirstAux_eid_nodup [] t.wParentStream)
  have hperm : (extractSentenceRoots t).Perm
      (t.preorder.filter (fun e => e.hasWChild)) := by
    rw [List.perm_ext_iff_of_nodup hnodup
      (List.Nodup.filter _ (List.Nodup.of_map Elem.eid hwf))]
    intro e
    rw [hmem e, List.mem_filter]
  refine ⟨hmem, hperm, hnodup, ?_, ?_⟩
  · exact dedupFirstAux_pairwise_firstIdx t.wParentStream []
  · intro hnil
    rw [hnil] at hperm
    exact hperm.eq_nil

/-- C4, witness at the concrete document `exDoc`, whose second and third
sentence roots are structurally identical apart from node identity. -/
theorem claim_C4_witness :
    (∀ e, e ∈ extractSentenceRoots exDoc
        ↔ e ∈ exDoc.preorder ∧ e.hasWChild = true)
    ∧ (extractSentenceRoots exDoc).Perm
        (exDoc.preorder.filter (fun e => e.hasWChild))
    ∧ (extractSentenceRoots exDoc).Nodup
    ∧ (extractSentenceRoots exDoc).Pairwise
        (fun a b => firstIdx exDoc.wParentStream a
          < firstIdx exDoc.wParentStream b)
    ∧ (exDoc.preorder.filter (fun e => e.hasWChild) = []
        → extractSentenceRoots exDoc = []) :=
  claim_C4 exDoc (by decide)

/-- C5: for every mapped element, the computed misc annotation list
contains `SpaceAfter=No` if and only if the element's tail text is
anything other than exactly one single space character (a missing tail,
`None` in lxml, also satisfies `e.tail != " "`); the token's `misc`
field is the pipe-join of that list, or absent when the list is empty. -/
theorem claim_C5 (i : Nat) (e : Elem) :
    ("SpaceAfter=No" ∈ miscList e ↔ e.tail ≠ some " ")
    ∧ (mapToken i e).misc
        = (if miscList e = [] then none
           else some (String.intercalate "|" (miscList e))) :=
  ⟨SA_mem_miscList e, rfl⟩

/-- C6: for every mapped element, the `misc` field equals the spec's
description: the pipe-joined list of exactly the applicable annotations,
the `SpaceAfter=No` flag first, then `Type`, `Subtype`, `Orig`, `Norm`
entries in that fixed relative order, each present only if the source
attribute exists — and `misc` is absent, not the empty string, exactly
when no annotation applies. -/
theorem claim_C6 (i : Nat) (e : Elem) :
    (mapToken i e).misc = specMisc e
    ∧ miscList e = specMiscAnnotations e
    ∧ ((mapToken i e).misc = none ↔ specMiscAnnotations e = []) := by
  have hl : miscList e = specMiscAnnotations e := miscList_eq_spec e
  have hm : (mapToken i e).misc = specMisc e := by
    show (if miscList e = [] then none
          else some (String.intercalate "|" (miscList e))) = specMisc e
    rw [hl, specMisc]
    rcases specMiscAnnotations e with _ | ⟨a, l⟩
    · rw [if_pos rfl]
    · rw [if_neg (List.cons_ne_nil a l)]
  refine ⟨hm, hl, ?_⟩
  rw [hm, specMisc]
  rcases specMiscAnnotations e with _ | ⟨a, l⟩
  · simp
  · simp

/-- C7: a punctuation element always yields `upos = PUNCT`, even when it
also carries `subtype="number"`; a word element with `subtype="number"`
yields `upos = NUM`; a word element without it yields no `upos`. -/
theorem claim_C7 (i : Nat) (e : Elem) :
    (e.tag = pcTag → (mapToken i e).upos = some "PUNCT")
    ∧ (e.tag = wTag → e.attrib.lookup "subtype" = some "number" →
        (mapToken i e).upos = some "NUM")
    ∧ (e.tag = wTag → e.attrib.lookup "subtype" ≠ some "number" →
        (mapToken i e).upos = none) := by
  have hne : wTag ≠ pcTag := by decide
  refine ⟨?_, ?_, ?_⟩
  · intro hp
    show posOf e = some "PUNCT"
    rw [posOf, if_pos hp]
  · intro hw hs
    show posOf e = some "NUM"
    rw [posOf, if_neg (hw ▸ hne), if_pos hs]
  · intro hw hs
    show posOf e = none
    rw [posOf, if_neg (hw ▸ hne), if_neg hs]

/-- C7, witness: a punctuation element with `subtype="number"` still
gets `PUNCT`, a word element with `subtype="number"` gets `NUM`, and a
plain word element gets no `upos`. -/
theorem claim_C7_witness :
    (mapToken 0 exPcNumber).upos = some "PUNCT"
    ∧ (mapToken 0 exWNumber).upos = some "NUM"
    ∧ (mapToken 0 exWPlain).upos = none :=
  ⟨(claim_C7 0 exPcNumber).1 (by decide),
   (claim_C7 0 exWNumber).2.1 (by decide) (by decide),
   (claim_C7 0 exWPlain).2.2 (by decide) (by decide)⟩

/-- C8: for every sentence root, the emitted tokens are exactly the
qualifying elements of the document-order traversal, each mapped with
its position among qualifying elements — so skipped elements consume no
id while their descendants are still visited — and the token ids form
the contiguous range `0..k-1` where `k` is the number of qualifying
descendants. -/
theorem claim_C8 (p : Elem) :
    rawTokens p
      = (List.enumFrom 0 (p.preorder.filter qualifies)).map
          (fun x => mapToken x.1 x.2)
    ∧ (rawTokens p).map Token.id
      = List.range (p.preorder.filter qualifies).length := by
  constructor
  · exact tokenLoop_eq p.preorder 0
  · rw [rawTokens, tokenLoop_map_id, List.range_eq_range']

/-- C9, counterexample: the claim says only the final extension changes
and all other path components stay unchanged. The code calls
`str.replace(".xml", ".conllu")`, which replaces every occurrence: for
the input path `v1.xml/data.xml` the directory component changes too. -/
theorem claim_C9_counterexample :
    derivedOutputPath "v1.xml/data.xml" = "v1.conllu/data.conllu"
    ∧ derivedOutputPath "v1.xml/data.xml" ≠ "v1.xml/data.conllu" :=
  ⟨by decide, by decide⟩

/-- C9, amended: the output path is the input path with every occurrence
of the substring `.xml` replaced by `.conllu`; in particular, when
`.xml` occurs exactly once, as the final extension, the result is the
input path with only that extension changed and everything before it
unchanged. (The existing-file behaviour is unchanged from the claim: the
file is opened in write mode, which truncates silently.) -/
theorem claim_C9_amended (pre : String)
    (h : occursSub ".xml".data pre.data = false) :
    derivedOutputPath (pre ++ ".xml") = pre ++ ".conllu" := by
  have hdata : (pre ++ ".xml").data = pre.data ++ ".xml".data :=
    String.data_append pre ".xml"
  rw [derivedOutputPath, hdata]
  have hlen : (pre.data ++ ".xml".data).length = pre.data.length + 4 := by
    rw [List.length_append]
    rfl
  rw [hlen, replaceAllFuel_clean pre.data (pre.data.length + 4) h (le_refl _)]
  refine String.ext ?_
  rw [String.data_append]

/-- C9, witness for the amended theorem: a normal input path whose only
`.xml` occurrence is the final extension. -/
theorem claim_C9_witness :
    derivedOutputPath ("dir/file" ++ ".xml") = "dir/file" ++ ".conllu" :=
  claim_C9_amended "dir/file" (by decide)

/-- C10: every sentence node actually yielded by the Sentence Extractor
has, by construction, a direct word child; that child is visited by the
traversal and passes the tag filter, so the raw token list is non-empty
and the unconditional clearing of the last token's `misc` — and hence
the whole mapper — never fails in the end-to-end pipeline. -/
theorem claim_C10 (t p : Elem) (sid : Nat)
    (hp : p ∈ extractSentenceRoots t) :
    rawTokens p ≠ [] ∧ (mapSentence sid p).isSome = true := by
  have hwps : p ∈ t.wParentStream :=
    dedupFirstAux_subset hp
  have hw : p.hasWChild = true := (mem_wParentStream.mp hwps).2
  obtain ⟨c, hc, hct⟩ := hasWChild_iff.mp hw
  have hcpre : c ∈ p.preorder :=
    mem_preorder.mpr (Or.inr ⟨c, hc, self_mem_preorder c⟩)
  have hq : qualifies c = true := by
    rw [qualifies, hct]
    simp
  have hraw : rawTokens p ≠ [] := rawTokens_ne_nil_of_qualifying hcpre hq
  refine ⟨hraw, ?_⟩
  rw [mapSentence, clearLastMisc_of_ne_nil hraw]
  rfl

/-- C10, witness at the concrete document `exDoc` and its first
extracted sentence root. -/
theorem claim_C10_witness :
    rawTokens exDocS1 ≠ [] ∧ (mapSentence 1 exDocS1).isSome = true :=
  claim_C10 exDoc exDocS1 1 (by
    rw [show extractSentenceRoots exDoc = exDocS1 :: [exDocS2, exDocS3] from rfl]
    exact List.mem_cons_self _ _)

end TeiConllu
